import Mathlib

/-
Verification of the crawl pipeline in src/compressor/crawlers.py.

Python strings are modelled as lists of characters (`Str`); a normalized
publication date ("YYYY-MM-DD") is modelled by its numeric components
`(year, month, day)` (`DateT`), which string equality of two
`strftime("%Y-%m-%d")` outputs determines exactly.  Fallible steps
(`datetime.fromisoformat`, list indexing) return `Option`/`Except`.
The unbounded `while True` pagination loop is modelled with explicit fuel:
a `none` result means the loop did not exit within the given number of
page requests, for any amount of fuel it never exits at all.
-/

namespace Compressor

abbrev Str := List Char

abbrev DateT := Nat × Nat × Nat

/- Strict "is before" on normalized dates, lexicographic on
   (year, month, day); `dateBefore a b` means `a` is earlier than `b`. -/
def dateBefore (a b : DateT) : Prop :=
  a.1 < b.1 ∨ (a.1 = b.1 ∧ (a.2.1 < b.2.1 ∨ (a.2.1 = b.2.1 ∧ a.2.2 < b.2.2)))

instance (a b : DateT) : Decidable (dateBefore a b) := by
  unfold dateBefore; infer_instance

/- `str.casefold()` as used on the ASCII abstracts and keywords. -/
def casefold (s : Str) : Str := s.map Char.toLower

/- `s.replace("\n", " ")` — the pattern is a single character, so the
   replacement is a character map. -/
def nlToSpace (s : Str) : Str := s.map fun c => if c = '\n' then ' ' else c

/- `s.replace("\n", "")` — removal of every newline character. -/
def stripNl (s : Str) : Str := s.filter fun c => c != '\n'

/- `needle.isPrefixOf hay` written out so that its correspondence with an
   explicit decomposition is provable without classing through `BEq`. -/
def startsWith : Str → Str → Bool
  | [], _ => true
  | _ :: _, [] => false
  | c :: n, d :: h => c == d && startsWith n h

/- Python `needle in hay` (substring containment). -/
def strContains (hay needle : Str) : Bool :=
  match hay with
  | [] => needle.isEmpty
  | _ :: rest => startsWith needle hay || strContains rest needle

/- `s.rstrip("Z")`. -/
def rstripZ (s : Str) : Str := (s.reverse.dropWhile fun c => c == 'Z').reverse

def digitVal (c : Char) : Nat := c.toNat - 48

def daysInMonth (y m : Nat) : Nat :=
  if m = 2 then (if y % 4 = 0 ∧ (y % 100 ≠ 0 ∨ y % 400 = 0) then 29 else 28)
  else if m = 4 ∨ m = 6 ∨ m = 9 ∨ m = 11 then 30
  else 31

/- `datetime.fromisoformat(s)` restricted to the date component, which is
   all `crawl_arxiv` keeps of it (`strftime("%Y-%m-%d")`).  Returns `none`
   when the string is not a valid ISO timestamp; the time-of-day portion
   after the `T`/space separator is not further validated, no claim
   depends on it. -/
def fromisoDate (s : Str) : Option DateT :=
  match s with
  | y1 :: y2 :: y3 :: y4 :: '-' :: m1 :: m2 :: '-' :: d1 :: d2 :: rest =>
    if (y1.isDigit ∧ y2.isDigit ∧ y3.isDigit ∧ y4.isDigit ∧
        m1.isDigit ∧ m2.isDigit ∧ d1.isDigit ∧ d2.isDigit) ∧
       (rest = [] ∨ rest.headD ' ' = 'T' ∨ rest.headD 'x' = ' ') then
      let y := ((digitVal y1 * 10 + digitVal y2) * 10 + digitVal y3) * 10 + digitVal y4
      let m := digitVal m1 * 10 + digitVal m2
      let d := digitVal d1 * 10 + digitVal d2
      if 1 ≤ m ∧ m ≤ 12 ∧ 1 ≤ d ∧ d ≤ daysInMonth y m then some (y, m, d) else none
    else none
  | _ => none

/- The module-level exclusion list `keywords_to_skip`. -/
def keywords_to_skip : List Str :=
  [ "adversarial attacks".toList,
    "blockchain".toList,
    "emotion recognition".toList,
    "occupancy prediction".toList,
    "federated".toList,
    "motion capture".toList,
    "shape reconstruction".toList,
    "surveillance".toList,
    "structure prediction".toList ]

/- `CATEGORIES_OF_INTEREST`; the Python set is modelled as a list, only
   membership is ever used. -/
def CATEGORIES_OF_INTEREST : List Str :=
  [ "cs.LG".toList, "cs.AI".toList, "cs.CV".toList, "cs.CL".toList ]

def PAGE_SIZE : Nat := 100

/- One raw entry of an arXiv listing page, the fields `crawl_arxiv`
   reads from `feedparser` output. -/
structure Entry where
  published : Str
  title : Str
  summary : Str
  link : Str
  authors : List Str
  primaryCategory : Str
deriving DecidableEq

/- Modelled from the spec: the `Paper` record of `compressor.data`
   (not under src/) — "normalized paper record" with string fields
   `title`, `abstract`, `url`, `authors`, `date_published`, `source`,
   `keywords`, `category`, the optional ones defaulting to empty.
   `date_published` holds the normalized date, `none` when a
   constructor call leaves it unset. -/
structure Paper where
  title : Str
  abstract : Str
  url : Str
  authors : Str
  date_published : Option DateT
  source : Str
  keywords : Str
  category : Str
deriving DecidableEq

/- Modelled from the spec: the `PaperDB` record store of
   `compressor.data` (not under src/) — an append-mostly collection of
   Items with membership by `url`, append, query by date, and commit;
   `commits` counts the commit calls issued on the handle. -/
structure PaperDB where
  papers : List Paper
  commits : Nat
deriving DecidableEq

def PaperDB.empty : PaperDB := { papers := [], commits := 0 }

def PaperDB.add (db : PaperDB) (p : Paper) : PaperDB :=
  { db with papers := db.papers ++ [p] }

def PaperDB.urls (db : PaperDB) : List Str := db.papers.map fun p => p.url

/- `paper.url in db._df.url.values` — membership by url. -/
def PaperDB.containsUrl (db : PaperDB) (u : Str) : Bool := decide (u ∈ db.urls)

def PaperDB.get_papers_for_date (db : PaperDB) (d : DateT) : List Paper :=
  db.papers.filter fun p => decide (p.date_published = some d)

def PaperDB.commit (db : PaperDB) : PaperDB :=
  { db with commits := db.commits + 1 }

/- The `Paper(...)` construction in `crawl_arxiv` (lines 115-122). -/
def mkArxivPaper (e : Entry) (d : DateT) : Paper :=
  { title := stripNl e.title
    abstract := nlToSpace e.summary
    url := e.link
    authors := List.intercalate [','] e.authors
    date_published := some d
    source := "arxiv".toList
    keywords := []
    category := [] }

/- `any([kw in casefold_summary for kw in keywords_to_skip])`. -/
def shouldSkipKeyword (abstract : Str) : Bool :=
  keywords_to_skip.any fun kw => strContains (casefold abstract) kw

/- The equal-date branch of the entry loop (lines 114-126): category
   filter, keyword filter, dedup check, append; `mkArxivPaper e d` is the
   local `paper` variable. -/
def handleEqual (db : PaperDB) (e : Entry) (d : DateT) : PaperDB :=
  if CATEGORIES_OF_INTEREST.contains e.primaryCategory then
    if shouldSkipKeyword (mkArxivPaper e d).abstract then db
    else if db.containsUrl (mkArxivPaper e d).url then db
    else db.add (mkArxivPaper e d)
  else db

/- The `for el in results["entries"]` loop (lines 108-129): parse the
   published timestamp (a parse failure raises and aborts the whole run),
   process equal-dated entries, and on the first entry whose date differs
   from the target set `stop_parsing` and break.  Returns the updated
   store and the `stop_parsing` flag. -/
def processEntries (target : DateT) : List Entry → PaperDB → Except Unit (PaperDB × Bool)
  | [], db => .ok (db, false)
  | e :: rest, db =>
    match fromisoDate (rstripZ e.published) with
    | none => .error ()
    | some d =>
      if d = target then processEntries target rest (handleEqual db e d)
      else .ok (db, true)

/- The `while True` pagination loop (lines 106-133).  `feed ctr` is the
   page `api_call(ctr, PAGE_SIZE)` returns.  Fuel bounds the number of
   page requests; `none` means the loop performed that many requests
   without exiting. -/
def crawlLoop (target : DateT) (feed : Nat → List Entry) :
    Nat → Nat → PaperDB → Option (Except Unit PaperDB)
  | 0, _, _ => none
  | fuel + 1, ctr, db =>
    match processEntries target (feed ctr) db with
    | .error e => some (.error e)
    | .ok (db2, stop) =>
      if stop then some (.ok db2)
      else crawlLoop target feed fuel (ctr + PAGE_SIZE) db2

/- `crawl_arxiv` (lines 97-138): run the pagination loop from offset 0,
   then commit once if the store holds any paper dated the target date. -/
def crawl_arxiv (fuel : Nat) (feed : Nat → List Entry) (target : DateT)
    (db : PaperDB) : Option (Except Unit PaperDB) :=
  match crawlLoop target feed fuel 0 db with
  | none => none
  | some (.error e) => some (.error e)
  | some (.ok db2) =>
    some (.ok (if 0 < (db2.get_papers_for_date target).length then db2.commit else db2))

/- One OpenReview submission, the fields `crawl_openreview` reads. -/
structure Submission where
  forum : Str
  title : Str
  abstract : Str
  authors : List Str
  keywords : List Str
deriving DecidableEq

def openreviewUrl (forum : Str) : Str :=
  "https://openreview.net/forum?id=".toList ++ forum

/- The `Paper(...)` construction in `crawl_openreview` (lines 156-163):
   fields are copied verbatim, no newline stripping, no date. -/
def mkOpenreviewPaper (venue : Str) (s : Submission) : Paper :=
  { title := s.title
    url := openreviewUrl s.forum
    abstract := s.abstract
    authors := List.intercalate [',', ' '] s.authors
    date_published := none
    source := venue
    keywords := List.intercalate [',', ' '] s.keywords
    category := [] }

/- `el.split("|")`. -/
def splitPipe (line : Str) : List Str := line.splitOn '|'

/- The ledger preload loop (lines 149-152): collect field index 2 of each
   line; a line with fewer than three pipe-delimited fields raises
   `IndexError` (`none`).  The Python set is modelled as the list of
   collected urls — it is never consulted, so only success or failure of
   the preload is observable. -/
def preloadUrls : List Str → Option (List Str)
  | [] => some []
  | line :: rest =>
    match (splitPipe line)[2]? with
    | none => none
    | some u => (preloadUrls rest).map fun us => u :: us

/- The preload including the `os.path.exists` guard: `none` ledger means
   the file does not exist and the exclusion set stays empty. -/
def ledgerPreload (ledger : Option (List Str)) : Option (List Str) :=
  match ledger with
  | none => some []
  | some lines => preloadUrls lines

/- The submission loop (lines 155-165): construct a Paper, append it,
   and commit, once per submission, in adapter order, unconditionally. -/
def ingest (venue : Str) : List Submission → PaperDB → PaperDB
  | [], db => db
  | s :: rest, db => ingest venue rest ((db.add (mkOpenreviewPaper venue s)).commit)

/- `crawl_openreview` (lines 141-165): preload the ledger (an `IndexError`
   aborts the run before any submission is processed), then ingest every
   submission into a fresh store.  The preloaded url set is not consulted. -/
def crawl_openreview (ledger : Option (List Str)) (venue : Str)
    (submissions : List Submission) : Except Unit PaperDB :=
  match ledgerPreload ledger with
  | none => .error ()
  | some _ => .ok (ingest venue submissions PaperDB.empty)

/- Every paper the windowed path appends satisfies this: dated the target
   date, not matching any exclusion keyword, and newline-free in title and
   abstract. -/
def goodPaper (target : DateT) (p : Paper) : Prop :=
  p.date_published = some target ∧
  shouldSkipKeyword p.abstract = false ∧
  '\n' ∉ p.title ∧ '\n' ∉ p.abstract

instance {ε α : Type} [DecidableEq ε] [DecidableEq α] : DecidableEq (Except ε α) :=
  fun a b => by
    cases a <;> cases b
    case error.error x y =>
      exact if h : x = y then .isTrue (by rw [h]) else .isFalse fun hh => h (by injection hh)
    case error.ok x y => exact .isFalse fun hh => by injection hh
    case ok.error x y => exact .isFalse fun hh => by injection hh
    case ok.ok x y =>
      exact if h : x = y then .isTrue (by rw [h]) else .isFalse fun hh => h (by injection hh)

/- Concrete fixtures used by witnesses and counterexamples. -/

def targetD : DateT := (2024, 3, 1)

def eGood : Entry :=
  { published := "2024-03-01T10:00:00Z".toList
    title := "Incremental Parsing Revisited".toList
    summary := "We study incremental parsing of program text.".toList
    link := "http://arxiv.org/abs/2403.00001".toList
    authors := ["Ada Lovelace".toList]
    primaryCategory := "cs.LG".toList }

def eEarlier : Entry :=
  { published := "2024-02-29T23:00:00Z".toList
    title := "An Older Paper".toList
    summary := "Published the day before.".toList
    link := "http://arxiv.org/abs/2402.09999".toList
    authors := ["Grace Hopper".toList]
    primaryCategory := "cs.LG".toList }

def eLater : Entry :=
  { published := "2024-03-02T01:00:00Z".toList
    title := "A Newer Paper".toList
    summary := "Published the day after.".toList
    link := "http://arxiv.org/abs/2403.10000".toList
    authors := ["Alan Turing".toList]
    primaryCategory := "cs.LG".toList }

def eBad : Entry :=
  { published := "not-a-date".toList
    title := "Broken Timestamp".toList
    summary := "This entry has no parseable date.".toList
    link := "http://arxiv.org/abs/2403.00002".toList
    authors := ["N. N.".toList]
    primaryCategory := "cs.LG".toList }

def eFed : Entry :=
  { published := "2024-03-01T09:00:00Z".toList
    title := "Distributed Learning".toList
    summary := "We use a Federated approach to learning.".toList
    link := "http://arxiv.org/abs/2403.00003".toList
    authors := ["C. Babbage".toList]
    primaryCategory := "cs.LG".toList }

def eNl : Entry :=
  { published := "2024-03-01T08:00:00Z".toList
    title := "Deep\nModels".toList
    summary := "Line one.\nLine two of the text.".toList
    link := "http://arxiv.org/abs/2403.00004".toList
    authors := ["D. Knuth".toList]
    primaryCategory := "cs.LG".toList }

def feedLaterThenGood : Nat → List Entry :=
  fun n => if n = 0 then [eLater] else if n = PAGE_SIZE then [eGood] else []

def feedEarlierOnly : Nat → List Entry := fun _ => [eEarlier]

def feedGoodThenEarlier : Nat → List Entry := fun _ => [eGood, eEarlier]

def feedBadThenGood : Nat → List Entry := fun _ => [eBad, eGood]

def feedFedThenEarlier : Nat → List Entry := fun _ => [eFed, eEarlier]

def feedNlThenEarlier : Nat → List Entry := fun _ => [eNl, eEarlier]

def pPre : Paper :=
  { title := "Already Stored".toList
    abstract := "An abstract already in the store.".toList
    url := "http://arxiv.org/abs/2403.00000".toList
    authors := "E. Dijkstra".toList
    date_published := some targetD
    source := "arxiv".toList
    keywords := []
    category := [] }

def dbPre : PaperDB := { papers := [pPre], commits := 0 }

def pSameUrl : Paper :=
  { title := "Same Url As eGood".toList
    abstract := "Stored earlier under the same url.".toList
    url := "http://arxiv.org/abs/2403.00001".toList
    authors := "F. Allen".toList
    date_published := some targetD
    source := "arxiv".toList
    keywords := []
    category := [] }

def dbSameUrl : PaperDB := { papers := [pSameUrl], commits := 0 }

def vC : Str := "test-venue".toList

def sDup : Submission :=
  { forum := "abc123".toList
    title := "A Submitted Paper".toList
    abstract := "An abstract of the submission.".toList
    authors := ["A. Author".toList]
    keywords := ["testing".toList] }

def sNl : Submission :=
  { forum := "nl1".toList
    title := "Deep\nLearning".toList
    abstract := "Line one.\nLine two.".toList
    authors := ["B. Author".toList]
    keywords := [] }

example : fromisoDate (rstripZ "2024-03-01T12:00:00Z".toList) = some (2024, 3, 1) := by decide

example : strContains "abcd".toList "bc".toList = true := by decide

example : shouldSkipKeyword (nlToSpace "We use a Federated\napproach".toList) = true := by decide

/-- C1 (counterexample): an entry dated later than the target date does not
merely get skipped — it sets `stop_parsing`, so the run halts before the next
page is requested and the equal-dated, filter-passing entry waiting there is
never appended.  The run ends with an empty store. -/
theorem arxiv_later_entry_halts_cex :
    fromisoDate (rstripZ eLater.published) = some (2024, 3, 2) ∧
    dateBefore targetD (2024, 3, 2) ∧
    fromisoDate (rstripZ eGood.published) = some targetD ∧
    CATEGORIES_OF_INTEREST.contains eGood.primaryCategory = true ∧
    shouldSkipKeyword (mkArxivPaper eGood targetD).abstract = false ∧
    feedLaterThenGood 0 = [eLater] ∧ feedLaterThenGood PAGE_SIZE = [eGood] ∧
    crawl_arxiv 3 feedLaterThenGood targetD PaperDB.empty = some (.ok PaperDB.empty) := by
  decide

/-- C2 (counterexample): the on-demand path performs no url dedup check —
appending two submissions with the same url stores the Item twice, so a second
append of an already-present url is not a no-op. -/
theorem openreview_duplicate_url_cex :
    crawl_openreview none vC [sDup, sDup] =
      .ok { papers := [mkOpenreviewPaper vC sDup, mkOpenreviewPaper vC sDup], commits := 2 } ∧
    ¬ (PaperDB.urls
        { papers := [mkOpenreviewPaper vC sDup, mkOpenreviewPaper vC sDup],
          commits := 2 }).Nodup := by
  decide

/-- C3 (counterexample): with a store already holding a paper dated the target
date, a run that appends nothing new still issues a commit — the commit guard
tests `get_papers_for_date`, not whether this run appended anything. -/
theorem arxiv_commit_without_new_items_cex :
    crawl_arxiv 1 feedEarlierOnly targetD dbPre =
      some (.ok { papers := dbPre.papers, commits := dbPre.commits + 1 }) := by
  decide

/-- C5 (counterexample): the on-demand path copies title and abstract verbatim,
so a submission embedding newlines reaches the Record Store with raw newline
characters in both fields. -/
theorem openreview_newline_title_cex :
    crawl_openreview none vC [sNl] =
      .ok { papers := [mkOpenreviewPaper vC sNl], commits := 1 } ∧
    '\n' ∈ (mkOpenreviewPaper vC sNl).title ∧
    '\n' ∈ (mkOpenreviewPaper vC sNl).abstract := by
  decide

/-- C6 (code bug): when the listing is exhausted and every page comes back
empty, `stop_parsing` is never set and the `while True` loop never exits —
for every fuel bound the loop consumes all of it without terminating, and so
does `crawl_arxiv`. -/
theorem arxiv_empty_feed_never_terminates :
    ∀ (target : DateT) (fuel : Nat) (db : PaperDB),
      (∀ ctr, crawlLoop target (fun _ => []) fuel ctr db = none) ∧
      crawl_arxiv fuel (fun _ => []) target db = none := by
  intro target fuel
  induction fuel with
  | zero =>
    intro db
    exact ⟨fun _ => rfl, rfl⟩
  | succ n ih =>
    intro db
    have hloop : ∀ ctr, crawlLoop target (fun _ => []) (n + 1) ctr db = none := by
      intro ctr
      simp only [crawlLoop, processEntries]
      exact (ih db).1 (ctr + PAGE_SIZE)
    refine ⟨hloop, ?_⟩
    simp only [crawl_arxiv, hloop 0]

/-- C9 (code bug): an entry whose published timestamp cannot be normalized
makes `datetime.fromisoformat` raise, aborting the entire run — the equal-dated,
appendable entry right after it in the same page is never processed, instead of
only the malformed entry being skipped. -/
theorem arxiv_malformed_date_aborts_run :
    fromisoDate (rstripZ eBad.published) = none ∧
    fromisoDate (rstripZ eGood.published) = some targetD ∧
    CATEGORIES_OF_INTEREST.contains eGood.primaryCategory = true ∧
    crawl_arxiv 1 feedBadThenGood targetD PaperDB.empty = some (.error ()) := by
  decide

lemma containsUrl_iff (db : PaperDB) (u : Str) : db.containsUrl u = true ↔ u ∈ db.urls := by
  unfold PaperDB.containsUrl
  exact decide_eq_true_iff

lemma urls_add (db : PaperDB) (p : Paper) : (db.add p).urls = db.urls ++ [p.url] := by
  simp [PaperDB.add, PaperDB.urls]

lemma commits_add (db : PaperDB) (p : Paper) : (db.add p).commits = db.commits := rfl

lemma papers_commit (db : PaperDB) : db.commit.papers = db.papers := rfl

lemma handleEqual_cases (db : PaperDB) (e : Entry) (d : DateT) :
    handleEqual db e d = db ∨
    (handleEqual db e d = db.add (mkArxivPaper e d) ∧
     shouldSkipKeyword (mkArxivPaper e d).abstract = false ∧
     db.containsUrl (mkArxivPaper e d).url = false) := by
  unfold handleEqual
  split_ifs with h1 h2 h3
  · exact .inl rfl
  · exact .inl rfl
  · exact .inr ⟨rfl, by simpa using h2, by simpa using h3⟩
  · exact .inl rfl

lemma mkArxivPaper_title_nl (e : Entry) (d : DateT) : '\n' ∉ (mkArxivPaper e d).title := by
  intro h
  simp only [mkArxivPaper, stripNl, List.mem_filter] at h
  exact absurd h.2 (by simp)

lemma mkArxivPaper_abstract_nl (e : Entry) (d : DateT) : '\n' ∉ (mkArxivPaper e d).abstract := by
  intro h
  simp only [mkArxivPaper, nlToSpace, List.mem_map] at h
  obtain ⟨x, _, hgx⟩ := h
  by_cases hxn : x = '\n'
  · rw [if_pos hxn] at hgx
    exact absurd hgx (by decide)
  · rw [if_neg hxn] at hgx
    exact hxn hgx

theorem processEntries_spec (target : DateT) (es : List Entry) :
    ∀ (db db2 : PaperDB) (stop : Bool),
      processEntries target es db = .ok (db2, stop) →
      db2.commits = db.commits ∧
      ∃ ext, db2.papers = db.papers ++ ext ∧ ∀ p ∈ ext, goodPaper target p := by
  induction es with
  | nil =>
    intro db db2 stop h
    simp only [processEntries, Except.ok.injEq, Prod.mk.injEq] at h
    obtain ⟨h1, _⟩ := h
    subst h1
    exact ⟨rfl, [], by simp, by simp⟩
  | cons e rest ih =>
    intro db db2 stop h
    simp only [processEntries] at h
    split at h
    · exact absurd h (by simp)
    · rename_i d _
      by_cases hdt : d = target
      · rw [if_pos hdt] at h
        obtain ⟨hcom, ext, hpap, hgood⟩ := ih (handleEqual db e d) db2 stop h
        rcases handleEqual_cases db e d with hhe | ⟨hhe, hkw, _⟩
        · rw [hhe] at hcom hpap
          exact ⟨hcom, ext, hpap, hgood⟩
        · rw [hhe] at hcom hpap
          refine ⟨by simpa [PaperDB.add] using hcom, mkArxivPaper e d :: ext, ?_, ?_⟩
          · simpa [PaperDB.add, List.append_assoc] using hpap
          · intro p hp
            rcases List.mem_cons.mp hp with rfl | hp
            · exact ⟨by simp [mkArxivPaper, hdt], hkw,
                mkArxivPaper_title_nl e d, mkArxivPaper_abstract_nl e d⟩
            · exact hgood p hp
      · rw [if_neg hdt] at h
        simp only [Except.ok.injEq, Prod.mk.injEq] at h
        obtain ⟨h1, _⟩ := h
        subst h1
        exact ⟨rfl, [], by simp, by simp⟩

theorem crawlLoop_spec (target : DateT) (feed : Nat → List Entry) :
    ∀ (fuel ctr : Nat) (db db2 : PaperDB),
      crawlLoop target feed fuel ctr db = some (.ok db2) →
      db2.commits = db.commits ∧
      ∃ ext, db2.papers = db.papers ++ ext ∧ ∀ p ∈ ext, goodPaper target p := by
  intro fuel
  induction fuel with
  | zero => intro ctr db db2 h; exact absurd h (by simp [crawlLoop])
  | succ n ih =>
    intro ctr db db2 h
    simp only [crawlLoop] at h
    cases hpe : processEntries target (feed ctr) db with
    | error err => rw [hpe] at h; exact absurd h (by simp)
    | ok pr =>
      obtain ⟨db1, stop⟩ := pr
      rw [hpe] at h
      cases stop with
      | true =>
        simp only [if_true, Option.some.injEq, Except.ok.injEq] at h
        subst h
        exact processEntries_spec target (feed ctr) db db1 true hpe
      | false =>
        simp only [Bool.false_eq_true, if_false] at h
        obtain ⟨hc1, ext1, hp1, hg1⟩ := processEntries_spec target (feed ctr) db db1 false hpe
        obtain ⟨hc2, ext2, hp2, hg2⟩ := ih (ctr + PAGE_SIZE) db1 db2 h
        refine ⟨hc2.trans hc1, ext1 ++ ext2, ?_, ?_⟩
        · rw [hp2, hp1, List.append_assoc]
        · intro p hp
          exact (List.mem_append.mp hp).elim (hg1 p) (hg2 p)

theorem crawl_arxiv_cases (fuel : Nat) (feed : Nat → List Entry) (target : DateT)
    (db db2 : PaperDB) (h : crawl_arxiv fuel feed target db = some (.ok db2)) :
    ∃ dbL, crawlLoop target feed fuel 0 db = some (.ok dbL) ∧ db2.papers = dbL.papers ∧
      ((db2 = dbL.commit ∧ dbL.get_papers_for_date target ≠ []) ∨
       (db2 = dbL ∧ dbL.get_papers_for_date target = [])) := by
  unfold crawl_arxiv at h
  cases hl : crawlLoop target feed fuel 0 db with
  | none => rw [hl] at h; exact absurd h (by simp)
  | some r =>
    rw [hl] at h
    cases r with
    | error err => exact absurd h (by simp)
    | ok dbL =>
      simp only [Option.some.injEq, Except.ok.injEq] at h
      subst h
      by_cases hlen : 0 < (dbL.get_papers_for_date target).length
      · rw [if_pos hlen]
        exact ⟨dbL, rfl, rfl, .inl ⟨rfl, List.length_pos.mp hlen⟩⟩
      · rw [if_neg hlen]
        refine ⟨dbL, rfl, rfl, .inr ⟨rfl, ?_⟩⟩
        exact List.length_eq_zero.mp (Nat.eq_zero_of_not_pos hlen)

/-- C1 (amended): when an entry's normalized published-date differs from the
target date — later as well as earlier — the entry is not appended, the rest of
its page is not examined, `stop_parsing` is set, and the loop exits without
requesting any further page, leaving the store unchanged; only equal-dated
entries are ever processed further. -/
theorem arxiv_stops_on_date_mismatch (target : DateT) (e : Entry) (rest : List Entry)
    (db : PaperDB) (d : DateT)
    (hd : fromisoDate (rstripZ e.published) = some d) (hne : d ≠ target) :
    processEntries target (e :: rest) db = .ok (db, true) ∧
    ∀ (feed : Nat → List Entry) (fuel ctr : Nat), feed ctr = e :: rest →
      crawlLoop target feed (fuel + 1) ctr db = some (.ok db) := by
  have h1 : processEntries target (e :: rest) db = .ok (db, true) := by
    simp only [processEntries, hd, if_neg hne]
  refine ⟨h1, ?_⟩
  intro feed fuel ctr hfeed
  simp only [crawlLoop, hfeed, h1, if_true]

/-- C1 (witness): the amended statement at the concrete later-dated entry
`eLater` against target 2024-03-01. -/
theorem arxiv_stops_on_date_mismatch_witness :
    processEntries targetD [eLater] PaperDB.empty = .ok (PaperDB.empty, true) ∧
    crawlLoop targetD feedLaterThenGood 1 0 PaperDB.empty = some (.ok PaperDB.empty) :=
  ⟨(arxiv_stops_on_date_mismatch targetD eLater [] PaperDB.empty (2024, 3, 2)
      (by decide) (by decide)).1,
   (arxiv_stops_on_date_mismatch targetD eLater [] PaperDB.empty (2024, 3, 2)
      (by decide) (by decide)).2 feedLaterThenGood 0 0 (by decide)⟩

/-- C3 (amended): after a successful windowed run, exactly one commit is issued
if and only if the store then holds at least one Item dated the target date —
items appended by this run or already present before it alike; when the run
starts from an empty store this coincides with the claim's reading: commit iff
at least one new Item was appended. -/
theorem arxiv_commit_iff_target_dated (fuel : Nat) (feed : Nat → List Entry)
    (target : DateT) (db db2 : PaperDB)
    (h : crawl_arxiv fuel feed target db = some (.ok db2)) :
    (db2.commits = db.commits + 1 ↔ db2.get_papers_for_date target ≠ []) ∧
    (db.papers = [] → (db2.commits = db.commits + 1 ↔ db2.papers ≠ [])) := by
  obtain ⟨dbL, hloop, hpap, hcase⟩ := crawl_arxiv_cases fuel feed target db db2 h
  obtain ⟨hcom, ext, hext, hgood⟩ := crawlLoop_spec target feed fuel 0 db dbL hloop
  have hgp : db2.get_papers_for_date target = dbL.get_papers_for_date target := by
    unfold PaperDB.get_papers_for_date
    rw [hpap]
  rcases hcase with ⟨hdb2, hne⟩ | ⟨hdb2, hnil⟩
  · have hcom2 : db2.commits = db.commits + 1 := by
      rw [hdb2]
      simp [PaperDB.commit, hcom]
    constructor
    · exact iff_of_true hcom2 (by rw [hgp]; exact hne)
    · intro _
      refine iff_of_true hcom2 ?_
      rw [hpap]
      intro hnilp
      exact hne (by unfold PaperDB.get_papers_for_date; rw [hnilp]; rfl)
  · have hcom2 : db2.commits = db.commits := by rw [hdb2]; exact hcom
    have hlne : ¬ db2.commits = db.commits + 1 := by omega
    constructor
    · exact iff_of_false hlne (by rw [hgp]; exact fun k => k hnil)
    · intro hempty
      refine iff_of_false hlne ?_
      have hext2 : dbL.papers = ext := by rw [hext, hempty]; rfl
      have hfil : dbL.get_papers_for_date target = dbL.papers := by
        unfold PaperDB.get_papers_for_date
        rw [List.filter_eq_self]
        intro a ha
        exact decide_eq_true (hgood a (hext2 ▸ ha)).1
      intro hne2
      exact hne2 (by rw [hpap, ← hfil, hnil])

/-- C3 (witness): a concrete successful run that appended `eGood`, with the
commit consequence extracted through the amended theorem. -/
theorem arxiv_commit_iff_target_dated_witness :
    PaperDB.get_papers_for_date { papers := [mkArxivPaper eGood targetD], commits := 1 } targetD ≠ [] :=
  (arxiv_commit_iff_target_dated 1 feedGoodThenEarlier targetD PaperDB.empty
      { papers := [mkArxivPaper eGood targetD], commits := 1 } (by decide)).1.mp (by decide)

/-- C5 (amended): every Item the windowed (arxiv) path adds to the store is
newline-free in both title and abstract — the title's newlines are removed and
the abstract's replaced by spaces; Items already in the store beforehand, and
the on-demand path (see the counterexample), carry no such guarantee. -/
theorem arxiv_no_newlines_in_new_papers (fuel : Nat) (feed : Nat → List Entry)
    (target : DateT) (db db2 : PaperDB)
    (h : crawl_arxiv fuel feed target db = some (.ok db2)) :
    ∀ p ∈ db2.papers, p ∈ db.papers ∨ ('\n' ∉ p.title ∧ '\n' ∉ p.abstract) := by
  intro p hp
  obtain ⟨dbL, hloop, hpap, _⟩ := crawl_arxiv_cases fuel feed target db db2 h
  obtain ⟨_, ext, hext, hgood⟩ := crawlLoop_spec target feed fuel 0 db dbL hloop
  rw [hpap, hext] at hp
  rcases List.mem_append.mp hp with hin | hin
  · exact .inl hin
  · exact .inr ⟨(hgood p hin).2.2.1, (hgood p hin).2.2.2⟩

/-- C5 (witness): a run over an entry whose title and summary embed newlines;
the Item it appends is newline-free. -/
theorem arxiv_no_newlines_witness :
    mkArxivPaper eNl targetD ∈ PaperDB.empty.papers ∨
    ('\n' ∉ (mkArxivPaper eNl targetD).title ∧ '\n' ∉ (mkArxivPaper eNl targetD).abstract) :=
  arxiv_no_newlines_in_new_papers 1 feedNlThenEarlier targetD PaperDB.empty
    { papers := [mkArxivPaper eNl targetD], commits := 1 } (by decide)
    (mkArxivPaper eNl targetD) (by decide)

lemma processEntries_count (target : DateT) (u : Str) (es : List Entry) :
    ∀ (db db2 : PaperDB) (stop : Bool),
      processEntries target es db = .ok (db2, stop) → u ∈ db.urls →
      db2.urls.count u = db.urls.count u := by
  induction es with
  | nil =>
    intro db db2 stop h _
    simp only [processEntries, Except.ok.injEq, Prod.mk.injEq] at h
    obtain ⟨h1, _⟩ := h
    subst h1
    rfl
  | cons e rest ih =>
    intro db db2 stop h hu
    simp only [processEntries] at h
    split at h
    · exact absurd h (by simp)
    · rename_i d _
      by_cases hdt : d = target
      · rw [if_pos hdt] at h
        rcases handleEqual_cases db e d with hhe | ⟨hhe, _, hurl⟩
        · rw [hhe] at h
          exact ih db db2 stop h hu
        · rw [hhe] at h
          have hne : (mkArxivPaper e d).url ≠ u := by
            intro he
            rw [he] at hurl
            rw [(containsUrl_iff db u).mpr hu] at hurl
            exact absurd hurl (by simp)
          have hmem2 : u ∈ (db.add (mkArxivPaper e d)).urls := by
            rw [urls_add]
            exact List.mem_append_left _ hu
          have hrec := ih (db.add (mkArxivPaper e d)) db2 stop h hmem2
          have hzero : List.count u [(mkArxivPaper e d).url] = 0 :=
            List.count_eq_zero.mpr (by simp; exact fun he => hne he.symm)
          rw [hrec, urls_add, List.count_append, hzero]
          omega
      · rw [if_neg hdt] at h
        simp only [Except.ok.injEq, Prod.mk.injEq] at h
        obtain ⟨h1, _⟩ := h
        subst h1
        rfl

lemma crawlLoop_count (target : DateT) (feed : Nat → List Entry) (u : Str) :
    ∀ (fuel ctr : Nat) (db db2 : PaperDB),
      crawlLoop target feed fuel ctr db = some (.ok db2) → u ∈ db.urls →
      db2.urls.count u = db.urls.count u := by
  intro fuel
  induction fuel with
  | zero => intro ctr db db2 h _; exact absurd h (by simp [crawlLoop])
  | succ n ih =>
    intro ctr db db2 h hu
    simp only [crawlLoop] at h
    cases hpe : processEntries target (feed ctr) db with
    | error err => rw [hpe] at h; exact absurd h (by simp)
    | ok pr =>
      obtain ⟨db1, stop⟩ := pr
      rw [hpe] at h
      cases stop with
      | true =>
        simp only [if_true, Option.some.injEq, Except.ok.injEq] at h
        subst h
        exact processEntries_count target u (feed ctr) db db1 true hpe hu
      | false =>
        simp only [Bool.false_eq_true, if_false] at h
        have h1 := processEntries_count target u (feed ctr) db db1 false hpe hu
        have hmem1 : u ∈ db1.urls := by
          obtain ⟨_, ext, hext, _⟩ := processEntries_spec target (feed ctr) db db1 false hpe
          unfold PaperDB.urls
          rw [hext, List.map_append]
          exact List.mem_append_left _ hu
        have h2 := ih (ctr + PAGE_SIZE) db1 db2 h hmem1
        rw [h2, h1]

/-- C2 (amended): the dedup invariant holds on the windowed path only — a
successful windowed run never re-appends a url already present in the store
(its multiplicity is unchanged), while the on-demand path appends
unconditionally without consulting the store's urls (see the counterexample). -/
theorem arxiv_no_reappend_existing_url (fuel : Nat) (feed : Nat → List Entry)
    (target : DateT) (db db2 : PaperDB)
    (h : crawl_arxiv fuel feed target db = some (.ok db2)) (u : Str) (hu : u ∈ db.urls) :
    db2.urls.count u = db.urls.count u := by
  obtain ⟨dbL, hloop, hpap, _⟩ := crawl_arxiv_cases fuel feed target db db2 h
  have hurls : db2.urls = dbL.urls := by
    unfold PaperDB.urls
    rw [hpap]
  rw [hurls]
  exact crawlLoop_count target feed u fuel 0 db dbL hloop hu

/-- C2 (witness): a run whose page resupplies an entry with an already-stored
url; the stored multiplicity of that url is unchanged afterwards. -/
theorem arxiv_no_reappend_existing_url_witness :
    (dbSameUrl.commit).urls.count pSameUrl.url = dbSameUrl.urls.count pSameUrl.url :=
  arxiv_no_reappend_existing_url 1 feedGoodThenEarlier targetD dbSameUrl dbSameUrl.commit
    (by decide) pSameUrl.url (by decide)

lemma ingest_spec (venue : Str) (subs : List Submission) :
    ∀ db : PaperDB,
      ingest venue subs db =
        { papers := db.papers ++ subs.map (mkOpenreviewPaper venue),
          commits := db.commits + subs.length } := by
  induction subs with
  | nil => intro db; simp [ingest]
  | cons s rest ih =>
    intro db
    rw [ingest, ih]
    simp [PaperDB.add, PaperDB.commit, List.append_assoc]
    omega

/-- C7: the on-demand controller appends every submission of the adapter's
sequence, in adapter order, issuing one commit per append; the result does not
depend on the preloaded ledger url set beyond the preload having succeeded —
ledger membership is never consulted before append. -/
theorem openreview_appends_all_and_commits_each (ledger : Option (List Str))
    (venue : Str) (subs : List Submission) (us : List Str)
    (hpre : ledgerPreload ledger = some us) :
    crawl_openreview ledger venue subs =
      .ok { papers := subs.map (mkOpenreviewPaper venue), commits := subs.length } := by
  unfold crawl_openreview
  rw [hpre, ingest_spec]
  simp [PaperDB.empty]

/-- C7 (witness): a one-line ledger plus one submission; the submission is
appended and committed, with the ledger url set (containing a different url)
ignored. -/
theorem openreview_appends_all_witness :
    crawl_openreview (some ["a|b|c".toList]) vC [sDup] =
      .ok { papers := [mkOpenreviewPaper vC sDup], commits := 1 } :=
  openreview_appends_all_and_commits_each (some ["a|b|c".toList]) vC [sDup]
    ["c".toList] (by decide)

lemma preloadUrls_eq_none_iff (lines : List Str) :
    preloadUrls lines = none ↔ ∃ l ∈ lines, (splitPipe l).length < 3 := by
  induction lines with
  | nil => simp [preloadUrls]
  | cons line rest ih =>
    simp only [preloadUrls]
    cases h2 : (splitPipe line)[2]? with
    | none =>
      rw [List.getElem?_eq_none_iff] at h2
      constructor
      · intro _
        exact ⟨line, List.mem_cons_self line rest, by omega⟩
      · intro _
        trivial
    | some u =>
      have hlen : ¬ (splitPipe line).length < 3 := by
        intro hlt
        rw [List.getElem?_eq_none (by omega)] at h2
        exact absurd h2 (by simp)
      simp only [Option.map_eq_none', ih, List.mem_cons]
      constructor
      · rintro ⟨l, hl, hlen3⟩
        exact ⟨l, Or.inr hl, hlen3⟩
      · rintro ⟨l, hl | hl, hlen3⟩
        · subst hl
          exact absurd hlen3 hlen
        · exact ⟨l, hl, hlen3⟩

/-- C10: with an existing ledger file, the on-demand run reaches the
submission loop exactly when every ledger line has at least three
pipe-delimited fields; a single shorter line makes the unguarded index of
field 2 fail, aborting the run before any submission is processed. -/
theorem openreview_ledger_preload_bounds (lines : List Str) (venue : Str)
    (subs : List Submission) :
    ((∀ l ∈ lines, 3 ≤ (splitPipe l).length) →
      crawl_openreview (some lines) venue subs = .ok (ingest venue subs PaperDB.empty)) ∧
    (crawl_openreview (some lines) venue subs = .error () ↔
      ∃ l ∈ lines, (splitPipe l).length < 3) := by
  have hred : crawl_openreview (some lines) venue subs =
      (match preloadUrls lines with
        | none => Except.error ()
        | some _ => Except.ok (ingest venue subs PaperDB.empty)) := by
    simp only [crawl_openreview, ledgerPreload]
  constructor
  · intro hall
    rw [hred]
    cases hp : preloadUrls lines with
    | none =>
      exfalso
      obtain ⟨l, hl, hlt⟩ := (preloadUrls_eq_none_iff lines).mp hp
      exact absurd (hall l hl) (by omega)
    | some us => rfl
  · rw [hred]
    cases hp : preloadUrls lines with
    | none =>
      exact iff_of_true rfl ((preloadUrls_eq_none_iff lines).mp hp)
    | some us =>
      refine iff_of_false (by simp) ?_
      intro hex
      rw [(preloadUrls_eq_none_iff lines).mpr hex] at hp
      exact absurd hp (by simp)

/-- C10 (witness): a two-field line aborts the run; a three-field line lets
every submission through. -/
theorem openreview_ledger_preload_bounds_witness :
    crawl_openreview (some ["a|b".toList]) vC [sDup] = .error () ∧
    crawl_openreview (some ["a|b|c".toList]) vC [sDup] =
      .ok (ingest vC [sDup] PaperDB.empty) :=
  ⟨(openreview_ledger_preload_bounds ["a|b".toList] vC [sDup]).2.mpr
      ⟨"a|b".toList, by decide, by decide⟩,
   (openreview_ledger_preload_bounds ["a|b|c".toList] vC [sDup]).1 (by decide)⟩

lemma startsWith_iff (n : Str) : ∀ h : Str, startsWith n h = true ↔ ∃ q, n ++ q = h := by
  induction n with
  | nil =>
    intro h
    simp [startsWith]
  | cons c n ih =>
    intro h
    cases h with
    | nil =>
      simp [startsWith]
    | cons d t =>
      simp only [startsWith, Bool.and_eq_true, beq_iff_eq, ih t, List.cons_append,
        List.cons.injEq]
      constructor
      · rintro ⟨hcd, q, hq⟩
        exact ⟨q, hcd, hq⟩
      · rintro ⟨q, hcd, hq⟩
        exact ⟨hcd, q, hq⟩

lemma strContains_iff (hay needle : Str) :
    strContains hay needle = true ↔ ∃ p q, p ++ needle ++ q = hay := by
  induction hay with
  | nil =>
    simp only [strContains, List.isEmpty_iff]
    constructor
    · intro h
      exact ⟨[], [], by simp [h]⟩
    · rintro ⟨p, q, hpq⟩
      rcases List.append_eq_nil.mp hpq with ⟨h1, h2⟩
      rcases List.append_eq_nil.mp h1 with ⟨_, h3⟩
      exact h3
  | cons c rest ih =>
    simp only [strContains, Bool.or_eq_true, startsWith_iff, ih]
    constructor
    · rintro (⟨q, hq⟩ | ⟨p, q, hpq⟩)
      · exact ⟨[], q, by simpa using hq⟩
      · exact ⟨c :: p, q, by simp [hpq]⟩
    · rintro ⟨p, q, hpq⟩
      cases p with
      | nil =>
        exact .inl ⟨q, by simpa using hpq⟩
      | cons x p =>
        rw [List.cons_append, List.cons_append, List.cons.injEq] at hpq
        exact .inr ⟨p, q, hpq.2⟩

lemma keywords_no_newline : ∀ kw ∈ keywords_to_skip, '\n' ∉ kw := by decide

lemma nlToSpace_of_no_nl (w : Str) (hw : ∀ c ∈ w, c ≠ '\n') : nlToSpace w = w := by
  unfold nlToSpace
  rw [List.map_congr_left fun c hc => if_neg (hw c hc)]
  exact List.map_id w

lemma shouldSkip_of_case_occurrence (kw : Str) (hkw : kw ∈ keywords_to_skip)
    (s p w q : Str) (hs : s = p ++ w ++ q) (hw : casefold w = kw) :
    shouldSkipKeyword (nlToSpace s) = true := by
  have hnl : ∀ c ∈ w, c ≠ '\n' := by
    intro c hc hcn
    have h1 : Char.toLower c ∈ casefold w := List.mem_map_of_mem Char.toLower hc
    rw [hcn] at h1
    have h2 : Char.toLower '\n' = '\n' := by decide
    rw [h2, hw] at h1
    exact keywords_no_newline kw hkw h1
  unfold shouldSkipKeyword
  rw [List.any_eq_true]
  refine ⟨kw, hkw, ?_⟩
  rw [strContains_iff]
  refine ⟨casefold (nlToSpace p), casefold (nlToSpace q), ?_⟩
  rw [hs]
  calc casefold (nlToSpace p) ++ kw ++ casefold (nlToSpace q)
      = casefold (nlToSpace p) ++ casefold (nlToSpace w) ++ casefold (nlToSpace q) := by
        rw [nlToSpace_of_no_nl w hnl, hw]
    _ = casefold (nlToSpace (p ++ w ++ q)) := by
        simp [nlToSpace, casefold, List.map_append]

/-- C4: for every exclusion keyword and every entry whose raw abstract contains
an occurrence whose casefold is that keyword (a case-insensitive substring
match), a successful windowed run never appends the corresponding Item,
whatever the entry's category — the filter is an OR over the exclusion list on
the case-folded abstract. -/
theorem arxiv_keyword_exclusion (kw : Str) (hkw : kw ∈ keywords_to_skip)
    (e : Entry) (p w q : Str) (hsplit : e.summary = p ++ w ++ q)
    (hfold : casefold w = kw) (d : DateT) (fuel : Nat) (feed : Nat → List Entry)
    (target : DateT) (db db2 : PaperDB)
    (hrun : crawl_arxiv fuel feed target db = some (.ok db2))
    (hnew : mkArxivPaper e d ∉ db.papers) :
    mkArxivPaper e d ∉ db2.papers := by
  intro hmem
  obtain ⟨dbL, hloop, hpap, _⟩ := crawl_arxiv_cases fuel feed target db db2 hrun
  obtain ⟨_, ext, hext, hgood⟩ := crawlLoop_spec target feed fuel 0 db dbL hloop
  rw [hpap, hext] at hmem
  rcases List.mem_append.mp hmem with hin | hin
  · exact hnew hin
  · have hfalse := (hgood _ hin).2.1
    have htrue : shouldSkipKeyword (mkArxivPaper e d).abstract = true :=
      shouldSkip_of_case_occurrence kw hkw e.summary p w q hsplit hfold
    rw [htrue] at hfalse
    exact absurd hfalse (by simp)

/-- C4 (witness): the spec's own scenario — an abstract reading "We use a
Federated approach..." with "federated" in the exclusion list is never
appended, although its category is in the interest set. -/
theorem arxiv_keyword_exclusion_witness :
    mkArxivPaper eFed targetD ∉ (PaperDB.commit dbPre).papers :=
  arxiv_keyword_exclusion ("federated".toList) (by decide) eFed
    ("We use a ".toList) ("Federated".toList) (" approach to learning.".toList)
    (by decide) (by decide) targetD 1 feedFedThenEarlier targetD dbPre
    (PaperDB.commit dbPre) (by decide) (by decide)

lemma processEntries_cons_some (target : DateT) (e : Entry) (rest : List Entry)
    (db : PaperDB) (d : DateT) (hd : fromisoDate (rstripZ e.published) = some d) :
    processEntries target (e :: rest) db =
      if d = target then processEntries target rest (handleEqual db e d)
      else .ok (db, true) := by
  simp only [processEntries, hd]

lemma processEntries_cons_none (target : DateT) (e : Entry) (rest : List Entry)
    (db : PaperDB) (hd : fromisoDate (rstripZ e.published) = none) :
    processEntries target (e :: rest) db = .error () := by
  simp only [processEntries, hd]

lemma processEntries_urls_sub (target : DateT) (es : List Entry) (db db2 : PaperDB)
    (stop : Bool) (h : processEntries target es db = .ok (db2, stop)) :
    ∀ u, u ∈ db.urls → u ∈ db2.urls := by
  obtain ⟨_, ext, hext, _⟩ := processEntries_spec target es db db2 stop h
  intro u hu
  unfold PaperDB.urls at hu ⊢
  rw [hext, List.map_append]
  exact List.mem_append_left _ hu

lemma crawlLoop_urls_sub (target : DateT) (feed : Nat → List Entry) (fuel ctr : Nat)
    (db db2 : PaperDB) (h : crawlLoop target feed fuel ctr db = some (.ok db2)) :
    ∀ u, u ∈ db.urls → u ∈ db2.urls := by
  obtain ⟨_, ext, hext, _⟩ := crawlLoop_spec target feed fuel ctr db db2 h
  intro u hu
  unfold PaperDB.urls at hu ⊢
  rw [hext, List.map_append]
  exact List.mem_append_left _ hu

lemma processEntries_stable (target : DateT) (es : List Entry) :
    ∀ (db db2 : PaperDB) (stop : Bool) (T : PaperDB),
      processEntries target es db = .ok (db2, stop) →
      (∀ u, u ∈ db2.urls → u ∈ T.urls) →
      processEntries target es T = .ok (T, stop) := by
  induction es with
  | nil =>
    intro db db2 stop T h _
    simp only [processEntries, Except.ok.injEq, Prod.mk.injEq] at h
    obtain ⟨_, h2⟩ := h
    subst h2
    rfl
  | cons e rest ih =>
    intro db db2 stop T h hsub
    cases hd : fromisoDate (rstripZ e.published) with
    | none =>
      rw [processEntries_cons_none target e rest db hd] at h
      exact absurd h (by simp)
    | some d =>
      rw [processEntries_cons_some target e rest db d hd] at h
      rw [processEntries_cons_some target e rest T d hd]
      by_cases hdt : d = target
      · rw [if_pos hdt] at h ⊢
        by_cases h1 : CATEGORIES_OF_INTEREST.contains e.primaryCategory = true
        · by_cases h2 : shouldSkipKeyword (mkArxivPaper e d).abstract = true
          · have hdb : handleEqual db e d = db := by
              unfold handleEqual
              rw [if_pos h1, if_pos h2]
            have hT : handleEqual T e d = T := by
              unfold handleEqual
              rw [if_pos h1, if_pos h2]
            rw [hdb] at h
            rw [hT]
            exact ih db db2 stop T h hsub
          · by_cases h3 : db.containsUrl (mkArxivPaper e d).url = true
            · have hdb : handleEqual db e d = db := by
                unfold handleEqual
                rw [if_pos h1, if_neg h2, if_pos h3]
              rw [hdb] at h
              have hmem : (mkArxivPaper e d).url ∈ T.urls :=
                hsub _ (processEntries_urls_sub target rest db db2 stop h _
                  ((containsUrl_iff db _).mp h3))
              have hT : handleEqual T e d = T := by
                unfold handleEqual
                rw [if_pos h1, if_neg h2, if_pos ((containsUrl_iff T _).mpr hmem)]
              rw [hT]
              exact ih db db2 stop T h hsub
            · have hdb : handleEqual db e d = db.add (mkArxivPaper e d) := by
                unfold handleEqual
                rw [if_pos h1, if_neg h2, if_neg h3]
              rw [hdb] at h
              have hmem : (mkArxivPaper e d).url ∈ T.urls := by
                apply hsub
                apply processEntries_urls_sub target rest (db.add (mkArxivPaper e d)) db2 stop h
                rw [urls_add]
                exact List.mem_append_right _ (List.mem_singleton.mpr rfl)
              have hT : handleEqual T e d = T := by
                unfold handleEqual
                rw [if_pos h1, if_neg h2, if_pos ((containsUrl_iff T _).mpr hmem)]
              rw [hT]
              exact ih (db.add (mkArxivPaper e d)) db2 stop T h hsub
        · have hdb : handleEqual db e d = db := by
            unfold handleEqual
            rw [if_neg h1]
          have hT : handleEqual T e d = T := by
            unfold handleEqual
            rw [if_neg h1]
          rw [hdb] at h
          rw [hT]
          exact ih db db2 stop T h hsub
      · rw [if_neg hdt] at h ⊢
        simp only [Except.ok.injEq, Prod.mk.injEq] at h
        obtain ⟨_, h2⟩ := h
        subst h2
        rfl

lemma crawlLoop_stable (target : DateT) (feed : Nat → List Entry) :
    ∀ (fuel ctr : Nat) (db dbf T : PaperDB),
      crawlLoop target feed fuel ctr db = some (.ok dbf) →
      (∀ u, u ∈ dbf.urls → u ∈ T.urls) →
      crawlLoop target feed fuel ctr T = some (.ok T) := by
  intro fuel
  induction fuel with
  | zero => intro ctr db dbf T h _; exact absurd h (by simp [crawlLoop])
  | succ n ih =>
    intro ctr db dbf T h hsub
    simp only [crawlLoop] at h ⊢
    cases hpe : processEntries target (feed ctr) db with
    | error err => rw [hpe] at h; exact absurd h (by simp)
    | ok pr =>
      obtain ⟨db1, stop⟩ := pr
      rw [hpe] at h
      cases stop with
      | true =>
        simp only [if_true, Option.some.injEq, Except.ok.injEq] at h
        subst h
        have hT := processEntries_stable target (feed ctr) db db1 true T hpe hsub
        simp only [hT, if_true]
      | false =>
        simp only [Bool.false_eq_true, if_false] at h
        have hsub1 : ∀ u, u ∈ db1.urls → u ∈ T.urls := fun u hu =>
          hsub u (crawlLoop_urls_sub target feed n (ctr + PAGE_SIZE) db1 dbf h u hu)
        have hT := processEntries_stable target (feed ctr) db db1 false T hpe hsub1
        simp only [hT, Bool.false_eq_true, if_false]
        exact ih (ctr + PAGE_SIZE) db1 dbf T h hsub

/-- C8: starting from the store a successful windowed run left behind, running
the controller again over the unchanged listing appends zero new Items — the
second pass over the pages leaves the store's papers untouched (every surviving
candidate is already present by url), and the second run's result differs at
most by the commit counter. -/
theorem arxiv_second_run_appends_nothing (fuel : Nat) (feed : Nat → List Entry)
    (target : DateT) (db db2 : PaperDB)
    (h : crawl_arxiv fuel feed target db = some (.ok db2)) :
    crawlLoop target feed fuel 0 db2 = some (.ok db2) ∧
    crawl_arxiv fuel feed target db2 =
      some (.ok (if 0 < (db2.get_papers_for_date target).length then db2.commit else db2)) ∧
    (if 0 < (db2.get_papers_for_date target).length then db2.commit else db2).papers
      = db2.papers := by
  obtain ⟨dbL, hloop, hpap, _⟩ := crawl_arxiv_cases fuel feed target db db2 h
  have hurls : db2.urls = dbL.urls := by
    unfold PaperDB.urls
    rw [hpap]
  have hstab : crawlLoop target feed fuel 0 db2 = some (.ok db2) :=
    crawlLoop_stable target feed fuel 0 db dbL db2 hloop (fun u hu => by rw [hurls]; exact hu)
  refine ⟨hstab, ?_, ?_⟩
  · simp only [crawl_arxiv, hstab]
  · by_cases hlen : 0 < (db2.get_papers_for_date target).length
    · rw [if_pos hlen]
      rfl
    · rw [if_neg hlen]

/-- C8 (witness): a first run that appended `eGood`; the second pass over the
same feed leaves the resulting store unchanged. -/
theorem arxiv_second_run_appends_nothing_witness :
    crawlLoop targetD feedGoodThenEarlier 1 0
      { papers := [mkArxivPaper eGood targetD], commits := 1 } =
      some (.ok { papers := [mkArxivPaper eGood targetD], commits := 1 }) :=
  (arxiv_second_run_appends_nothing 1 feedGoodThenEarlier targetD PaperDB.empty
    { papers := [mkArxivPaper eGood targetD], commits := 1 } (by decide)).1

end Compressor
